import Mathlib

set_option maxRecDepth 8000

/-! Formal model of the pixel-upgrade build step of tools/pixel_upgrade.py:
RGBA pixel buffers, the four transform stages (speckle cleanup, palette
quantization, contrast normalization, outline emphasis), target resolution,
and the preserve-and-upgrade file workflow, together with theorems about
their behaviour.  Machine integers are modelled as Nat (channels stay in
0..255 by construction), Python floats as exact rationals. -/

/-- An RGBA pixel with 8-bit channels, as produced by getdata. -/
structure Pixel where
  r : Nat
  g : Nat
  b : Nat
  a : Nat
deriving DecidableEq

/-- An in-memory RGBA raster: width, height and a row-major pixel list. -/
structure Img where
  w : Nat
  h : Nat
  data : List Pixel
deriving DecidableEq

/-- Well-formed image: the pixel list covers the full canvas. -/
def Img.WF (img : Img) : Prop := img.data.length = img.w * img.h

instance (img : Img) : Decidable img.WF := by
  unfold Img.WF; infer_instance

def zPix : Pixel := ⟨0, 0, 0, 0⟩

/-- Read a pixel at a flat row-major index (out-of-range reads give zero;
the source indexes px[y*w+x], always in range for a well-formed buffer). -/
def getPx (px : List Pixel) (i : Nat) : Pixel := px.getD i zPix

/-- clamp from the source: bound an integer channel value to [0, 255]. -/
def clamp (z : ℤ) : Nat := if z < 0 then 0 else if 255 < z then 255 else z.toNat

abbrev RGB := Nat × Nat × Nat

/-- luminance from the source: 0.2126 r + 0.7152 g + 0.0722 b, as an exact
rational. -/
def lumRGB (c : RGB) : ℚ := (2126 * c.1 + 7152 * c.2.1 + 722 * c.2.2) / 10000

/-- Pixel luminance (of the colour channels). -/
def lumPix (p : Pixel) : ℚ := lumRGB (p.r, p.g, p.b)

/-- iter_neighbors from the source: the eight neighbour coordinates of
(x, y), in the scan order dy = -1,0,1 outer and dx = -1,0,1 inner. -/
def iter_neighbors (x y : Int) : List (Int × Int) :=
  [(x - 1, y - 1), (x, y - 1), (x + 1, y - 1),
   (x - 1, y), (x + 1, y),
   (x - 1, y + 1), (x, y + 1), (x + 1, y + 1)]

/-- A coordinate pair is inside the w-by-h canvas (the source skips
nx < 0, ny < 0, nx >= w, ny >= h). -/
def inBounds (w h : Nat) (nx ny : Int) : Prop :=
  0 ≤ nx ∧ nx < (w : Int) ∧ 0 ≤ ny ∧ ny < (h : Int)

instance (w h : Nat) (nx ny : Int) : Decidable (inBounds w h nx ny) := by
  unfold inBounds; infer_instance

/-- Flat index of an in-bounds coordinate pair. -/
def idxOf (w : Nat) (nx ny : Int) : Nat := (ny * (w : Int) + nx).toNat

/-- Increment the count of a key in an insertion-ordered association list,
appending the key with count 1 when absent (a Python dict update). -/
def assocInc (colors : List (Pixel × Nat)) (c : Pixel) : List (Pixel × Nat) :=
  match colors with
  | [] => [(c, 1)]
  | (k, n) :: rest => if k = c then (k, n + 1) :: rest else (k, n) :: assocInc rest c

/-- The neighbour scan of speckle_cleanup: count opaque 8-neighbours and
build the insertion-ordered colour histogram, reading the original buffer. -/
def neighborScan (px : List Pixel) (w h thr : Nat) (x y : Nat) : Nat × List (Pixel × Nat) :=
  (iter_neighbors (x : Int) (y : Int)).foldl
    (fun acc c =>
      if inBounds w h c.1 c.2 then
        let q := getPx px (idxOf w c.1 c.2)
        if thr < q.a then (acc.1 + 1, assocInc acc.2 q) else acc
      else acc)
    (0, [])

/-- Left fold that keeps the first element and replaces it only when the
candidate is strictly better: the semantics of Python max / min with a key,
whose ties go to the first-seen element. -/
def foldPick (better : α → α → Bool) (a : α) (l : List α) : α :=
  l.foldl (fun best c => if better c best then c else best) a

/-- max(colors.items(), key=count) from the source: the first key of
maximal count in dict insertion order. -/
def dictMax (colors : List (Pixel × Nat)) : Option Pixel :=
  match colors with
  | [] => none
  | e :: rest => some (foldPick (fun kv best => best.2 < kv.2) e rest).1

/-- The body of the speckle_cleanup double loop for one position. -/
def speckPixel (px : List Pixel) (w h thr : Nat) (x y : Nat) : Pixel :=
  let p := getPx px (y * w + x)
  if p.a ≤ thr then p
  else
    let s := neighborScan px w h thr x y
    if s.1 ≤ 1 ∧ s.2 ≠ [] then (dictMax s.2).getD p else p

/-- speckle_cleanup from the source: replace isolated opaque speckles by
the most common neighbouring colour, reading only the input buffer and
writing a fresh output buffer. -/
def speckle_cleanup (img : Img) (thr : Nat) : Img :=
  ⟨img.w, img.h,
   (List.range (img.w * img.h)).map fun i =>
     speckPixel img.data img.w img.h thr (i % img.w) (i / img.w)⟩

/-- The opaque 8-neighbours of (x, y), in neighbour scan order, read from
the original buffer (the claim-side view of the neighbour scan). -/
def opaqueNeighbors (px : List Pixel) (w h thr : Nat) (x y : Nat) : List Pixel :=
  (iter_neighbors (x : Int) (y : Int)).filterMap fun c =>
    if inBounds w h c.1 c.2 then
      let q := getPx px (idxOf w c.1 c.2)
      if thr < q.a then some q else none
    else none

/-- The distinct values of a list in first-seen order. -/
def firstSeen [DecidableEq α] (l : List α) : List α :=
  l.foldl (fun acc c => if c ∈ acc then acc else acc ++ [c]) []

/-- The most frequent value of a list, ties broken by first-seen order
(the claim-side statement of the replacement rule). -/
def mostFreqFirstSeen [DecidableEq α] (l : List α) : Option α :=
  match firstSeen l with
  | [] => none
  | c :: rest => some (foldPick (fun u v => l.count v < l.count u) c rest)

/-- The histogram built by folding assocInc over a list. -/
def dictOf (l : List Pixel) : List (Pixel × Nat) := l.foldl assocInc []

theorem assocInc_ne_nil (d : List (Pixel × Nat)) (c : Pixel) : assocInc d c ≠ [] := by
  match d with
  | [] => simp [assocInc]
  | (k, n) :: rest =>
    simp only [assocInc]
    split <;> simp

theorem foldl_assocInc_ne_nil (l : List Pixel) (d : List (Pixel × Nat)) (hd : d ≠ []) :
    l.foldl assocInc d ≠ [] := by
  induction l generalizing d with
  | nil => simpa
  | cons c l ih => exact ih _ (assocInc_ne_nil d c)

theorem dictOf_eq_nil_iff (l : List Pixel) : dictOf l = [] ↔ l = [] := by
  constructor
  · intro h
    cases l with
    | nil => rfl
    | cons c l =>
      exfalso
      exact foldl_assocInc_ne_nil l (assocInc [] c) (assocInc_ne_nil [] c) h
  · rintro rfl; rfl

/-- The source's combined neighbour fold computes the opaque-neighbour count
and the histogram of the opaque neighbours. -/
theorem neighborScan_fold_general (px : List Pixel) (w h thr : Nat)
    (L : List (Int × Int)) (n : Nat) (d : List (Pixel × Nat)) :
    L.foldl
      (fun acc c =>
        if inBounds w h c.1 c.2 then
          let q := getPx px (idxOf w c.1 c.2)
          if thr < q.a then (acc.1 + 1, assocInc acc.2 q) else acc
        else acc)
      (n, d) =
    (n + (L.filterMap fun c =>
        if inBounds w h c.1 c.2 then
          let q := getPx px (idxOf w c.1 c.2)
          if thr < q.a then some q else none
        else none).length,
     (L.filterMap fun c =>
        if inBounds w h c.1 c.2 then
          let q := getPx px (idxOf w c.1 c.2)
          if thr < q.a then some q else none
        else none).foldl assocInc d) := by
  induction L generalizing n d with
  | nil => simp
  | cons c L ih =>
    simp only [List.foldl_cons, List.filterMap_cons]
    by_cases hb : inBounds w h c.1 c.2
    · simp only [hb, if_pos]
      by_cases ha : thr < (getPx px (idxOf w c.1 c.2)).a
      · simp only [ha, if_pos]
        rw [ih]
        simp [List.length_cons]
        omega
      · simp only [ha, if_neg]
        rw [ih]
        simp [ha]
    · simp only [hb, if_neg]
      rw [ih]
      simp [hb]

theorem neighborScan_eq (px : List Pixel) (w h thr : Nat) (x y : Nat) :
    neighborScan px w h thr x y =
      ((opaqueNeighbors px w h thr x y).length,
       dictOf (opaqueNeighbors px w h thr x y)) := by
  unfold neighborScan opaqueNeighbors dictOf
  rw [neighborScan_fold_general]
  simp

theorem idx_lt {x y w h : Nat} (hx : x < w) (hy : y < h) : y * w + x < w * h := by
  have h1 : y * w + x < (y + 1) * w := by rw [Nat.succ_mul]; omega
  have h2 : (y + 1) * w ≤ h * w := Nat.mul_le_mul_right w hy
  rw [Nat.mul_comm w h]; omega

theorem speckle_getD (img : Img) (thr i : Nat) (hi : i < img.w * img.h) :
    (speckle_cleanup img thr).data.getD i zPix =
      speckPixel img.data img.w img.h thr (i % img.w) (i / img.w) := by
  simp [speckle_cleanup, List.getD, hi]

theorem dictMax_singleton (c : Pixel) : dictMax (dictOf [c]) = some c := by
  simp [dictOf, assocInc, dictMax, foldPick]

theorem mostFreqFirstSeen_singleton [DecidableEq α] (c : α) :
    mostFreqFirstSeen [c] = some c := by
  have h : firstSeen [c] = [c] := by simp [firstSeen]
  simp [mostFreqFirstSeen, h, foldPick]

/-- C2: speckle cleanup replaces a pixel exactly when it is opaque
(alpha above the threshold) and has at most one but at least one opaque
8-neighbour (out-of-bounds positions not counted); the replacement is the
most frequent exact RGBA value among its opaque neighbours with ties broken
by first-seen order in the neighbour scan; every other pixel passes through
unchanged; and all neighbour data is read from the original input buffer. -/
theorem claim_C2_speckle (img : Img) (thr : Nat) (hwf : img.WF)
    (x y : Nat) (hx : x < img.w) (hy : y < img.h) :
    (speckle_cleanup img thr).data.getD (y * img.w + x) zPix =
      (if thr < (getPx img.data (y * img.w + x)).a ∧
          1 ≤ (opaqueNeighbors img.data img.w img.h thr x y).length ∧
          (opaqueNeighbors img.data img.w img.h thr x y).length ≤ 1
       then (mostFreqFirstSeen (opaqueNeighbors img.data img.w img.h thr x y)).getD
              (getPx img.data (y * img.w + x))
       else getPx img.data (y * img.w + x)) := by
  have hi : y * img.w + x < img.w * img.h := idx_lt hx hy
  have hw : 0 < img.w := Nat.lt_of_le_of_lt (Nat.zero_le x) hx
  rw [speckle_getD img thr _ hi]
  have hxm : (y * img.w + x) % img.w = x := by
    rw [Nat.add_comm, Nat.add_mul_mod_self_right, Nat.mod_eq_of_lt hx]
  have hyd : (y * img.w + x) / img.w = y := by
    rw [Nat.add_comm, Nat.add_mul_div_right _ _ hw, Nat.div_eq_of_lt hx]
    omega
  rw [hxm, hyd]
  simp only [speckPixel]
  rw [neighborScan_eq]
  set nbrs := opaqueNeighbors img.data img.w img.h thr x y with hnbrs
  set p := getPx img.data (y * img.w + x) with hp
  by_cases hpa : p.a ≤ thr
  · rw [if_pos hpa, if_neg (fun hcon => absurd hcon.1 (Nat.not_lt.mpr hpa))]
  · rw [if_neg hpa]
    dsimp only
    by_cases hne : nbrs = []
    · rw [if_neg, if_neg]
      · intro hcon
        rw [hne] at hcon
        simp at hcon
      · intro hcon
        exact hcon.2 ((dictOf_eq_nil_iff _).mpr hne)
    · by_cases hlen : nbrs.length ≤ 1
      · have h1 : 1 ≤ nbrs.length := List.length_pos.mpr hne
        have hlen1 : nbrs.length = 1 := Nat.le_antisymm hlen h1
        obtain ⟨c, hc⟩ := List.length_eq_one.mp hlen1
        rw [if_pos ⟨hlen, fun hcon => hne ((dictOf_eq_nil_iff _).mp hcon)⟩,
            if_pos ⟨Nat.lt_of_not_le hpa, h1, hlen⟩]
        rw [hc, dictMax_singleton, mostFreqFirstSeen_singleton]
      · rw [if_neg (fun hcon => hlen hcon.1), if_neg (fun hcon => hlen hcon.2.2)]

/-- C2 witness: the characterization evaluated concretely on a 3-by-3 buffer
whose centre is an isolated speckle with a single opaque neighbour. -/
theorem claim_C2_speckle_witness :
    (let img : Img := ⟨3, 3,
      [⟨9, 9, 9, 255⟩, ⟨0, 0, 0, 0⟩, ⟨0, 0, 0, 0⟩,
       ⟨0, 0, 0, 0⟩, ⟨5, 6, 7, 255⟩, ⟨0, 0, 0, 0⟩,
       ⟨0, 0, 0, 0⟩, ⟨0, 0, 0, 0⟩, ⟨0, 0, 0, 0⟩]⟩
     img.WF ∧
      (speckle_cleanup img 1).data.getD (1 * img.w + 1) zPix =
        (if 1 < (getPx img.data (1 * img.w + 1)).a ∧
            1 ≤ (opaqueNeighbors img.data img.w img.h 1 1 1).length ∧
            (opaqueNeighbors img.data img.w img.h 1 1 1).length ≤ 1
         then (mostFreqFirstSeen (opaqueNeighbors img.data img.w img.h 1 1 1)).getD
                (getPx img.data (1 * img.w + 1))
         else getPx img.data (1 * img.w + 1))) := by
  exact ⟨by decide, claim_C2_speckle _ 1 (by decide) 1 1 (by decide) (by decide)⟩

theorem foldPick_cons (better : α → α → Bool) (a c : α) (l : List α) :
    foldPick better a (c :: l) = foldPick better (if better c a then c else a) l := rfl

theorem foldPick_mem (better : α → α → Bool) (a : α) (l : List α) :
    foldPick better a l ∈ a :: l := by
  induction l generalizing a with
  | nil => simp [foldPick]
  | cons c l ih =>
    rw [foldPick_cons]
    by_cases hb : better c a
    · rw [if_pos hb]
      exact List.mem_cons_of_mem a (ih c)
    · rw [if_neg hb]
      rcases List.mem_cons.mp (ih a) with h | h
      · exact List.mem_cons.mpr (Or.inl h)
      · exact List.mem_cons_of_mem a (List.mem_cons_of_mem c h)

/-- Squared RGB distance used to map a pixel to its palette representative. -/
def sqDistZ (c d : RGB) : ℤ :=
  ((c.1 : ℤ) - d.1) ^ 2 + ((c.2.1 : ℤ) - d.2.1) ^ 2 + ((c.2.2 : ℤ) - d.2.2) ^ 2

/-- Modelled from the spec: each pixel maps to exactly one bucket
representative of the reduced palette (the nearest one; PIL's palette
mapping backend is not part of the repository). -/
def nearest (pal : List RGB) (c : RGB) : RGB :=
  match pal with
  | [] => c
  | p :: ps => foldPick (fun q best => sqDistZ q c < sqDistZ best c) p ps

theorem nearest_mem (pal : List RGB) (c : RGB) (h : pal ≠ []) : nearest pal c ∈ pal := by
  match pal with
  | [] => exact absurd rfl h
  | p :: ps => exact foldPick_mem _ p ps

/-- Insert into a sorted list with respect to a boolean ordering. -/
def insertLe (le : α → α → Bool) (a : α) : List α → List α
  | [] => [a]
  | b :: l => if le a b then a :: b :: l else b :: insertLe le a l

/-- Insertion sort with respect to a boolean ordering. -/
def sortByLe (le : α → α → Bool) : List α → List α
  | [] => []
  | a :: l => insertLe le a (sortByLe le l)

theorem length_insertLe (le : α → α → Bool) (a : α) (l : List α) :
    (insertLe le a l).length = l.length + 1 := by
  induction l with
  | nil => rfl
  | cons b l ih =>
    simp only [insertLe]
    split
    · simp
    · simp [ih]

theorem length_sortByLe (le : α → α → Bool) (l : List α) :
    (sortByLe le l).length = l.length := by
  induction l with
  | nil => rfl
  | cons a l ih => simp [sortByLe, length_insertLe, ih]

theorem mem_insertLe (le : α → α → Bool) (a x : α) (l : List α) :
    x ∈ insertLe le a l ↔ x = a ∨ x ∈ l := by
  induction l with
  | nil => simp [insertLe]
  | cons b l ih =>
    simp only [insertLe]
    split
    · simp [List.mem_cons]
    · simp only [List.mem_cons, ih]
      tauto

theorem mem_sortByLe (le : α → α → Bool) (x : α) (l : List α) :
    x ∈ sortByLe le l ↔ x ∈ l := by
  induction l with
  | nil => simp [sortByLe]
  | cons a l ih => simp [sortByLe, mem_insertLe, ih]

/-- Channel projection of an RGB triple: 0 is red, 1 is green, 2 is blue. -/
def chanOf (i : Nat) (c : RGB) : Nat := if i = 0 then c.1 else if i = 1 then c.2.1 else c.2.2

def maxL (l : List Nat) : Nat := l.foldl max 0

def minL : List Nat → Nat
  | [] => 0
  | a :: l => l.foldl min a

/-- Spread of a colour box along one channel. -/
def rangeOf (box : List RGB) (i : Nat) : Nat :=
  maxL (box.map (chanOf i)) - minL (box.map (chanOf i))

/-- The channel along which a colour box is widest. -/
def widestChan (box : List RGB) : Nat :=
  if rangeOf box 1 ≥ rangeOf box 0 ∧ rangeOf box 1 ≥ rangeOf box 2 then 1
  else if rangeOf box 0 ≥ rangeOf box 2 then 0 else 2

/-- Modelled from the spec: one median-cut split - sort the box along its
widest channel and cut at the median (boxes of at most one colour do not
split). -/
def splitBox (box : List RGB) : Option (List RGB × List RGB) :=
  if box.length ≤ 1 then none
  else
    let ch := widestChan box
    let sorted := sortByLe (fun u v => chanOf ch u ≤ chanOf ch v) box
    some (sorted.take (box.length / 2), sorted.drop (box.length / 2))

/-- Split the first splittable box of a box list. -/
def splitFirst : List (List RGB) → Option (List (List RGB))
  | [] => none
  | b :: bs =>
    match splitBox b with
    | some s => some (s.1 :: s.2 :: bs)
    | none =>
      match splitFirst bs with
      | some bs' => some (b :: bs')
      | none => none

/-- Modelled from the spec: median-cut bucketing - split boxes until the
requested colour count is reached or no box can split. -/
def mcSplit (k : Nat) : Nat → List (List RGB) → List (List RGB)
  | 0, boxes => boxes
  | fuel + 1, boxes =>
    if k ≤ boxes.length then boxes
    else
      match splitFirst boxes with
      | some boxes' => mcSplit k fuel boxes'
      | none => boxes

def sumBy (f : RGB → Nat) (l : List RGB) : Nat := l.foldl (fun s c => s + f c) 0

/-- Representative colour of a box: the channel-wise average. -/
def avgBox (box : List RGB) : RGB :=
  (sumBy (fun c => c.1) box / box.length,
   sumBy (fun c => c.2.1) box / box.length,
   sumBy (fun c => c.2.2) box / box.length)

/-- Modelled from the spec: the reduced palette produced by the median-cut
bucketing algorithm of Image.quantize (MEDIANCUT, no dithering), which is
library code outside the repository. -/
def medianCutPalette (colors : List RGB) (k : Nat) : List RGB :=
  (mcSplit k k [colors]).map avgBox

/-- The RGB triples of all pixels of an image, in row-major order
(img.convert RGB keeps every pixel, transparent ones included). -/
def imgRGBList (img : Img) : List RGB := img.data.map fun p => (p.r, p.g, p.b)

/-- The RGB triples of the pixels with nonzero alpha, in row-major order. -/
def opaqueRGBList (img : Img) : List RGB :=
  img.data.filterMap fun p => if p.a ≠ 0 then some (p.r, p.g, p.b) else none

/-- len(set(...)) from the source: the number of distinct RGB triples among
pixels with nonzero alpha. -/
def distinctOpaqueCount (img : Img) : Nat := (opaqueRGBList img).toFinset.card

/-- quantize_if_needed from the source: quantize only if unique opaque
colours exceed max_colors; the quantizer runs on the RGB conversion of the
whole image and the original alpha channel is merged back. -/
def quantize_if_needed (img : Img) (max_colors : Nat) : Img :=
  if distinctOpaqueCount img ≤ max_colors then img
  else
    let pal := medianCutPalette (firstSeen (imgRGBList img)) max_colors
    ⟨img.w, img.h,
     img.data.map fun p =>
       let c := nearest pal (p.r, p.g, p.b)
       ⟨c.1, c.2.1, c.2.2, p.a⟩⟩

theorem splitFirst_length (bs bs' : List (List RGB)) (h : splitFirst bs = some bs') :
    bs'.length = bs.length + 1 := by
  induction bs generalizing bs' with
  | nil => simp [splitFirst] at h
  | cons b bs ih =>
    unfold splitFirst at h
    cases hsb : splitBox b with
    | some s =>
      rw [hsb] at h
      simp only [Option.some.injEq] at h
      subst h
      simp
    | none =>
      rw [hsb] at h
      cases hsf : splitFirst bs with
      | none =>
        rw [hsf] at h
        simp at h
      | some bs2 =>
        rw [hsf] at h
        simp only [Option.some.injEq] at h
        subst h
        simp [ih bs2 hsf]

theorem mcSplit_length_le (k : Nat) (fuel : Nat) (boxes : List (List RGB)) :
    (mcSplit k fuel boxes).length ≤ max boxes.length k := by
  induction fuel generalizing boxes with
  | zero => exact le_max_left _ _
  | succ fuel ih =>
    unfold mcSplit
    by_cases hk : k ≤ boxes.length
    · rw [if_pos hk]
      exact le_max_left _ _
    · rw [if_neg hk]
      cases hsf : splitFirst boxes with
      | none => exact le_max_left _ _
      | some boxes' =>
        have hl := splitFirst_length boxes boxes' hsf
        have hle : boxes.length + 1 ≤ k := Nat.lt_of_not_le hk
        calc (mcSplit k fuel boxes').length
            ≤ max boxes'.length k := ih boxes'
          _ = k := by rw [hl]; exact Nat.max_eq_right hle
          _ ≤ max boxes.length k := le_max_right _ _

theorem mcSplit_ne_nil (k fuel : Nat) (boxes : List (List RGB)) (h : boxes ≠ []) :
    mcSplit k fuel boxes ≠ [] := by
  induction fuel generalizing boxes with
  | zero => exact h
  | succ fuel ih =>
    unfold mcSplit
    by_cases hk : k ≤ boxes.length
    · rw [if_pos hk]; exact h
    · rw [if_neg hk]
      cases hsf : splitFirst boxes with
      | none => exact h
      | some boxes' =>
        have hl := splitFirst_length boxes boxes' hsf
        exact ih boxes' (by
          intro hc
          rw [hc] at hl
          simp at hl)

theorem medianCutPalette_length_le (colors : List RGB) (k : Nat) (hk : 1 ≤ k) :
    (medianCutPalette colors k).length ≤ k := by
  unfold medianCutPalette
  rw [List.length_map]
  have h := mcSplit_length_le k k [colors]
  simpa [Nat.max_eq_right hk] using h

theorem medianCutPalette_ne_nil (colors : List RGB) (k : Nat) :
    medianCutPalette colors k ≠ [] := by
  unfold medianCutPalette
  intro h
  rw [List.map_eq_nil] at h
  exact mcSplit_ne_nil k k [colors] (by simp) h

/-- C3: quantization is the identity when the count of distinct RGB triples
among nonzero-alpha pixels is at most max_colors; the output always has at
most max_colors distinct RGB triples among its nonzero-alpha pixels; and
every output alpha equals the corresponding input alpha. -/
theorem claim_C3_quantize (img : Img) (k : Nat) (hk : 1 ≤ k) :
    (distinctOpaqueCount img ≤ k → quantize_if_needed img k = img) ∧
    distinctOpaqueCount (quantize_if_needed img k) ≤ k ∧
    (∀ i : Nat, ((quantize_if_needed img k).data.getD i zPix).a =
      (img.data.getD i zPix).a) := by
  refine ⟨?_, ?_, ?_⟩
  · intro h
    unfold quantize_if_needed
    rw [if_pos h]
  · by_cases h : distinctOpaqueCount img ≤ k
    · unfold quantize_if_needed
      rw [if_pos h]
      exact h
    · unfold quantize_if_needed
      rw [if_neg h]
      set pal := medianCutPalette (firstSeen (imgRGBList img)) k with hpal
      have hne : pal ≠ [] := medianCutPalette_ne_nil _ _
      have hlen : pal.length ≤ k := medianCutPalette_length_le _ _ hk
      have hsub : ∀ c ∈ opaqueRGBList
          (⟨img.w, img.h, img.data.map fun p =>
            let q := nearest pal (p.r, p.g, p.b)
            ⟨q.1, q.2.1, q.2.2, p.a⟩⟩ : Img), c ∈ pal := by
        intro c hc
        unfold opaqueRGBList at hc
        rw [List.mem_filterMap] at hc
        obtain ⟨p, hp, hpc⟩ := hc
        rw [List.mem_map] at hp
        obtain ⟨q, _, rfl⟩ := hp
        by_cases hqa : q.a ≠ 0
        · rw [if_pos hqa] at hpc
          simp only [Option.some.injEq] at hpc
          rw [← hpc]
          exact nearest_mem pal (q.r, q.g, q.b) hne
        · simp [hqa] at hpc
      unfold distinctOpaqueCount
      calc (opaqueRGBList _).toFinset.card
          ≤ pal.toFinset.card := by
            apply Finset.card_le_card
            intro c hc
            rw [List.mem_toFinset] at hc ⊢
            exact hsub c hc
        _ ≤ pal.length := List.toFinset_card_le pal
        _ ≤ k := hlen
  · intro i
    by_cases h : distinctOpaqueCount img ≤ k
    · unfold quantize_if_needed
      rw [if_pos h]
    · unfold quantize_if_needed
      rw [if_neg h]
      simp only [List.getD, List.get?_map]
      cases hgi : img.data.get? i with
      | none => simp
      | some p => simp

/-- C3 witness: the bound and the pass-through branch evaluated on a 2-by-1
buffer with three distinct opaque colours and max_colors = 2. -/
theorem claim_C3_quantize_witness :
    (1 : Nat) ≤ 2 ∧
    ((distinctOpaqueCount (⟨3, 1, [⟨0, 0, 0, 255⟩, ⟨255, 255, 255, 255⟩, ⟨40, 50, 60, 255⟩]⟩ : Img) ≤ 2 →
        quantize_if_needed (⟨3, 1, [⟨0, 0, 0, 255⟩, ⟨255, 255, 255, 255⟩, ⟨40, 50, 60, 255⟩]⟩ : Img) 2 =
          (⟨3, 1, [⟨0, 0, 0, 255⟩, ⟨255, 255, 255, 255⟩, ⟨40, 50, 60, 255⟩]⟩ : Img)) ∧
      distinctOpaqueCount
        (quantize_if_needed (⟨3, 1, [⟨0, 0, 0, 255⟩, ⟨255, 255, 255, 255⟩, ⟨40, 50, 60, 255⟩]⟩ : Img) 2) ≤ 2 ∧
      (∀ i : Nat,
        ((quantize_if_needed (⟨3, 1, [⟨0, 0, 0, 255⟩, ⟨255, 255, 255, 255⟩, ⟨40, 50, 60, 255⟩]⟩ : Img) 2).data.getD i zPix).a =
          ((⟨3, 1, [⟨0, 0, 0, 255⟩, ⟨255, 255, 255, 255⟩, ⟨40, 50, 60, 255⟩]⟩ : Img).data.getD i zPix).a)) :=
  ⟨by decide, claim_C3_quantize _ 2 (by decide)⟩

/-- C10: when quantization is triggered it also remaps the RGB channels of
fully transparent pixels through the palette: on this concrete buffer the
transparent pixel at index 2 does not pass through byte-identically. -/
theorem claim_C10_transparent_remap :
    (¬ distinctOpaqueCount (⟨3, 1, [⟨0, 0, 0, 255⟩, ⟨255, 255, 255, 255⟩, ⟨7, 9, 11, 0⟩]⟩ : Img) ≤ 1) ∧
    ((⟨3, 1, [⟨0, 0, 0, 255⟩, ⟨255, 255, 255, 255⟩, ⟨7, 9, 11, 0⟩]⟩ : Img).data.getD 2 zPix).a = 0 ∧
    ((quantize_if_needed (⟨3, 1, [⟨0, 0, 0, 255⟩, ⟨255, 255, 255, 255⟩, ⟨7, 9, 11, 0⟩]⟩ : Img) 1).data.getD 2 zPix).a = 0 ∧
    ((quantize_if_needed (⟨3, 1, [⟨0, 0, 0, 255⟩, ⟨255, 255, 255, 255⟩, ⟨7, 9, 11, 0⟩]⟩ : Img) 1).data.getD 2 zPix).r ≠
      ((⟨3, 1, [⟨0, 0, 0, 255⟩, ⟨255, 255, 255, 255⟩, ⟨7, 9, 11, 0⟩]⟩ : Img).data.getD 2 zPix).r := by
  decide

/-- adj from the source: normalize a channel value against the luminance
window [lo, hi], clamp to [0,1], expand around the midpoint by the strength
factor, and scale back to an 8-bit value. -/
def adjChan (lo hi strength : ℚ) (c : Nat) : Nat :=
  let t0 : ℚ := ((c : ℚ) - lo) / (hi - lo)
  let t1 : ℚ := if t0 < 0 then 0 else if 1 < t0 then 1 else t0
  let t2 : ℚ := 1 / 2 + (t1 - 1 / 2) * (1 + strength)
  clamp (round (t2 * 255))

/-- contrast_normalize from the source: mild contrast stretch on opaque
pixels against the 5th-95th percentile luminance window; transparent
pixels pass through and near-flat windows make the stage a no-op. -/
def contrast_normalize (img : Img) (strength : ℚ) : Img :=
  let px := img.data
  let lums := px.filterMap fun p => if p.a ≠ 0 then some (lumPix p) else none
  if lums = [] then img
  else
    let sorted := sortByLe (fun u v : ℚ => decide (u ≤ v)) lums
    let lo := sorted.getD (5 * (lums.length - 1) / 100) 0
    let hi := sorted.getD (95 * (lums.length - 1) / 100) 0
    if hi ≤ lo + 1 / 1000000 then img
    else
      ⟨img.w, img.h,
       px.map fun p =>
         if p.a = 0 then p
         else ⟨adjChan lo hi strength p.r, adjChan lo hi strength p.g,
               adjChan lo hi strength p.b, p.a⟩⟩

theorem getD_mem_of_lt (l : List α) (i : Nat) (d : α) (h : i < l.length) :
    l.getD i d ∈ l := by
  induction l generalizing i with
  | nil => simp at h
  | cons a l ih =>
    cases i with
    | zero => simp [List.getD]
    | succ i =>
      simp only [List.getD_cons_succ]
      exact List.mem_cons_of_mem a (ih i (by simpa using h))

/-- C6: contrast normalization outputs every fully transparent pixel
byte-identical to its input, and is a no-op on any buffer whose opaque
pixels all share one luminance. -/
theorem claim_C6_contrast (img : Img) (s : ℚ) :
    (∀ i : Nat, (img.data.getD i zPix).a = 0 →
      (contrast_normalize img s).data.getD i zPix = img.data.getD i zPix) ∧
    ((∀ p ∈ img.data, p.a ≠ 0 → ∀ q ∈ img.data, q.a ≠ 0 → lumPix p = lumPix q) →
      contrast_normalize img s = img) := by
  constructor
  · intro i ha
    unfold contrast_normalize
    dsimp only
    split
    · rfl
    · split
      · rfl
      · simp only [List.getD, List.get?_map]
        cases hgi : img.data.get? i with
        | none => simp
        | some p =>
          have hpa : p.a = 0 := by
            rw [List.getD, hgi] at ha
            exact ha
          simp [hpa]
  · intro hflat
    unfold contrast_normalize
    dsimp only
    set lums := img.data.filterMap
      (fun p => if p.a ≠ 0 then some (lumPix p) else none) with hlums
    by_cases hnil : lums = []
    · rw [if_pos hnil]
    · rw [if_neg hnil]
      have hall : ∀ u ∈ lums, ∀ v ∈ lums, u = v := by
        intro u hu v hv
        rw [hlums, List.mem_filterMap] at hu hv
        obtain ⟨p, hp, hpu⟩ := hu
        obtain ⟨q, hq, hqv⟩ := hv
        by_cases hpa : p.a ≠ 0
        · by_cases hqa : q.a ≠ 0
          · rw [if_pos hpa] at hpu
            rw [if_pos hqa] at hqv
            simp only [Option.some.injEq] at hpu hqv
            rw [← hpu, ← hqv]
            exact hflat p hp hpa q hq hqa
          · rw [if_neg hqa] at hqv
            simp at hqv
        · rw [if_neg hpa] at hpu
          simp at hpu
      have h1 : 1 ≤ lums.length := List.length_pos.mpr hnil
      have hslen : (sortByLe (fun u v : ℚ => decide (u ≤ v)) lums).length = lums.length :=
        length_sortByLe _ _
      have hi05 : 5 * (lums.length - 1) / 100 < lums.length := by
        have h2 : 5 * (lums.length - 1) / 100 ≤ 5 * (lums.length - 1) / 5 :=
          Nat.div_le_div_left (by omega) (by omega)
        have h3 : 5 * (lums.length - 1) / 5 = lums.length - 1 :=
          Nat.mul_div_cancel_left _ (by omega)
        omega
      have hi95 : 95 * (lums.length - 1) / 100 < lums.length := by
        have h2 : 95 * (lums.length - 1) / 100 ≤ 95 * (lums.length - 1) / 95 :=
          Nat.div_le_div_left (by omega) (by omega)
        have h3 : 95 * (lums.length - 1) / 95 = lums.length - 1 :=
          Nat.mul_div_cancel_left _ (by omega)
        omega
      have hlo : (sortByLe (fun u v : ℚ => decide (u ≤ v)) lums).getD
          (5 * (lums.length - 1) / 100) 0 ∈ lums := by
        rw [← mem_sortByLe (fun u v : ℚ => decide (u ≤ v))]
        exact getD_mem_of_lt _ _ _ (by rw [hslen]; exact hi05)
      have hhi : (sortByLe (fun u v : ℚ => decide (u ≤ v)) lums).getD
          (95 * (lums.length - 1) / 100) 0 ∈ lums := by
        rw [← mem_sortByLe (fun u v : ℚ => decide (u ≤ v))]
        exact getD_mem_of_lt _ _ _ (by rw [hslen]; exact hi95)
      have heq := hall _ hhi _ hlo
      rw [if_pos (by rw [heq]; exact le_add_of_nonneg_right (by norm_num))]

/-- C6 witness: the no-op conclusion applied to a concrete flat buffer. -/
theorem claim_C6_contrast_witness :
    contrast_normalize (⟨2, 1, [⟨10, 10, 10, 255⟩, ⟨10, 10, 10, 0⟩]⟩ : Img) (1 / 10) =
      (⟨2, 1, [⟨10, 10, 10, 255⟩, ⟨10, 10, 10, 0⟩]⟩ : Img) :=
  (claim_C6_contrast _ (1 / 10)).2 (by
    intro p hp _ q hq _
    simp only [List.mem_cons, List.not_mem_nil, or_false] at hp hq
    rcases hp with rfl | rfl <;> rcases hq with rfl | rfl <;> rfl)

/-- Python min with a key returns the first element attaining the minimal
key: it is at a position all of whose predecessors have strictly larger
keys, and its key is at most every element's key. -/
theorem foldPick_min_first (f : α → ℚ) (d a : α) (l : List α) :
    ∃ k, k < (a :: l).length ∧
      (a :: l).getD k d = foldPick (fun u v => decide (f u < f v)) a l ∧
      (∀ j, j < k → f (foldPick (fun u v => decide (f u < f v)) a l) < f ((a :: l).getD j d)) ∧
      (∀ c ∈ a :: l, f (foldPick (fun u v => decide (f u < f v)) a l) ≤ f c) := by
  induction l generalizing a with
  | nil =>
    refine ⟨0, by simp, rfl, ?_, ?_⟩
    · intro j hj; omega
    · intro c hc
      have he : foldPick (fun u v => decide (f u < f v)) a [] = a := rfl
      rw [List.mem_singleton] at hc
      rw [he, hc]
  | cons c l ih =>
    rw [foldPick_cons]
    by_cases hb : f c < f a
    · rw [if_pos (by simpa using hb)]
      obtain ⟨k', hk', hget, hstrict, hmem⟩ := ih c
      refine ⟨k' + 1, by simpa using hk', by simpa using hget, ?_, ?_⟩
      · intro j hj
        cases j with
        | zero =>
          simp only [List.getD_cons_zero]
          exact lt_of_le_of_lt (hmem c (List.mem_cons_self c l)) hb
        | succ j' =>
          have h2 := hstrict j' (by omega)
          simpa using h2
      · intro x hx
        rcases List.mem_cons.mp hx with rfl | hx'
        · exact le_of_lt (lt_of_le_of_lt (hmem c (List.mem_cons_self c l)) hb)
        · exact hmem x hx'
    · rw [if_neg (by simpa using hb)]
      have hab : f a ≤ f c := le_of_not_lt hb
      obtain ⟨k', hk', hget, hstrict, hmem⟩ := ih a
      cases k' with
      | zero =>
        refine ⟨0, by simp, by simpa using hget, ?_, ?_⟩
        · intro j hj; omega
        · intro x hx
          rcases List.mem_cons.mp hx with heq | hx'
          · rw [heq]
            exact hmem a (List.mem_cons_self a l)
          · rcases List.mem_cons.mp hx' with heq2 | hx''
            · rw [heq2]
              exact le_trans (hmem a (List.mem_cons_self a l)) hab
            · exact hmem x (List.mem_cons_of_mem a hx'')
      | succ j' =>
        refine ⟨j' + 2, ?_, ?_, ?_, ?_⟩
        · simp only [List.length_cons]
          simp only [List.length_cons] at hk'
          omega
        · simp only [List.getD_cons_succ] at hget ⊢
          exact hget
        · intro j hj
          match j with
          | 0 =>
            simp only [List.getD_cons_zero]
            have h0 := hstrict 0 (by omega)
            simpa using h0
          | 1 =>
            simp only [List.getD_cons_succ, List.getD_cons_zero]
            have h0 : f (foldPick (fun u v => decide (f u < f v)) a l) < f a := by
              simpa using hstrict 0 (by omega)
            exact lt_of_lt_of_le h0 hab
          | (j'' + 2) =>
            simp only [List.getD_cons_succ]
            have h2 := hstrict (j'' + 1) (by omega)
            simpa using h2
        · intro x hx
          rcases List.mem_cons.mp hx with heq | hx'
          · rw [heq]
            exact hmem a (List.mem_cons_self a l)
          · rcases List.mem_cons.mp hx' with heq2 | hx''
            · rw [heq2]
              exact le_trans (hmem a (List.mem_cons_self a l)) hab
            · exact hmem x (List.mem_cons_of_mem a hx'')

/-- is_boundary from the source: an opaque pixel with a 4-connected
neighbour that is transparent or outside the image. -/
def is_boundary (px : List Pixel) (w h x y : Nat) : Bool :=
  if (getPx px (y * w + x)).a = 0 then false
  else
    [((x : Int) - 1, (y : Int)), ((x : Int) + 1, (y : Int)),
     ((x : Int), (y : Int) - 1), ((x : Int), (y : Int) + 1)].any fun c =>
      !(decide (inBounds w h c.1 c.2)) || decide ((getPx px (idxOf w c.1 c.2)).a = 0)

/-- min(opaque, key=luminance) from the source: the darkest opaque colour,
ties going to the first occurrence in row-major order. -/
def darkRGB (img : Img) : RGB :=
  match opaqueRGBList img with
  | [] => (0, 0, 0)
  | o :: os => foldPick (fun u v => decide (lumRGB u < lumRGB v)) o os

/-- One channel of the outline blend toward the darkest colour. -/
def blendChan (amount : ℚ) (c dc : Nat) : Nat :=
  clamp (round ((c : ℚ) * (1 - amount) + (dc : ℚ) * amount))

/-- outline_emphasis from the source: blend boundary pixels toward the
darkest existing colour, classifying against the original buffer. -/
def outline_emphasis (img : Img) (amount : ℚ) : Img :=
  if opaqueRGBList img = [] then img
  else
    let darkest := darkRGB img
    ⟨img.w, img.h,
     (List.range (img.w * img.h)).map fun i =>
       let p := getPx img.data i
       if is_boundary img.data img.w img.h (i % img.w) (i / img.w) then
         ⟨blendChan amount p.r darkest.1, blendChan amount p.g darkest.2.1,
          blendChan amount p.b darkest.2.2, p.a⟩
       else p⟩

theorem is_boundary_opaque (px : List Pixel) (w h x y : Nat)
    (hb : is_boundary px w h x y = true) : (getPx px (y * w + x)).a ≠ 0 := by
  intro ha
  unfold is_boundary at hb
  rw [if_pos ha] at hb
  exact Bool.false_ne_true hb

/-- C5: outline emphasis leaves every non-boundary pixel unchanged; a
boundary pixel keeps its alpha and has its RGB blended toward the darkest
opaque colour; the darkest colour attains the minimal luminance with ties
broken by first occurrence in row-major order; and boundary classification
reads only the original buffer. -/
theorem claim_C5_outline (img : Img) (am : ℚ) (hwf : img.WF) :
    (∀ i : Nat, i < img.w * img.h →
      is_boundary img.data img.w img.h (i % img.w) (i / img.w) = false →
      (outline_emphasis img am).data.getD i zPix = img.data.getD i zPix) ∧
    (∀ i : Nat, i < img.w * img.h →
      is_boundary img.data img.w img.h (i % img.w) (i / img.w) = true →
      (outline_emphasis img am).data.getD i zPix =
        ⟨blendChan am (img.data.getD i zPix).r (darkRGB img).1,
         blendChan am (img.data.getD i zPix).g (darkRGB img).2.1,
         blendChan am (img.data.getD i zPix).b (darkRGB img).2.2,
         (img.data.getD i zPix).a⟩) ∧
    (opaqueRGBList img ≠ [] →
      ∃ k, k < (opaqueRGBList img).length ∧
        (opaqueRGBList img).getD k (0, 0, 0) = darkRGB img ∧
        (∀ j, j < k →
          lumRGB (darkRGB img) < lumRGB ((opaqueRGBList img).getD j (0, 0, 0))) ∧
        (∀ c ∈ opaqueRGBList img, lumRGB (darkRGB img) ≤ lumRGB c)) := by
  refine ⟨?_, ?_, ?_⟩
  · intro i hi hb
    unfold outline_emphasis
    by_cases hop : opaqueRGBList img = []
    · rw [if_pos hop]
    · rw [if_neg hop]
      dsimp only
      simp [List.getD, hi, hb, getPx]
  · intro i hi hb
    by_cases hop : opaqueRGBList img = []
    · exfalso
      have ha := is_boundary_opaque img.data img.w img.h (i % img.w) (i / img.w) hb
      have hidx : (i / img.w) * img.w + i % img.w = i := by
        rw [Nat.mul_comm]
        exact Nat.div_add_mod i img.w
      rw [hidx] at ha
      have hil : i < img.data.length := by rw [hwf]; exact hi
      have hmem : img.data.getD i zPix ∈ img.data := getD_mem_of_lt _ _ _ hil
      have hin : ((img.data.getD i zPix).r, (img.data.getD i zPix).g,
          (img.data.getD i zPix).b) ∈ opaqueRGBList img := by
        unfold opaqueRGBList
        rw [List.mem_filterMap]
        exact ⟨_, hmem, by
          rw [if_pos (show (img.data.getD i zPix).a ≠ 0 from ha)]⟩
      rw [hop] at hin
      exact List.not_mem_nil _ hin
    · unfold outline_emphasis
      rw [if_neg hop]
      dsimp only
      simp [List.getD, hi, hb, getPx]
  · intro hop
    cases heq : opaqueRGBList img with
    | nil => exact absurd heq hop
    | cons o os =>
      have hD : darkRGB img = foldPick (fun u v => decide (lumRGB u < lumRGB v)) o os := by
        unfold darkRGB
        rw [heq]
      rw [hD]
      exact foldPick_min_first lumRGB (0, 0, 0) o os

/-- C5 witness: the characterization applied to a concrete 2-by-1 buffer
(both pixels are boundary pixels). -/
theorem claim_C5_outline_witness :
    (let img : Img := ⟨2, 1, [⟨10, 10, 10, 255⟩, ⟨200, 0, 0, 255⟩]⟩
     (∀ i : Nat, i < img.w * img.h →
        is_boundary img.data img.w img.h (i % img.w) (i / img.w) = false →
        (outline_emphasis img (35 / 100)).data.getD i zPix = img.data.getD i zPix) ∧
      (∀ i : Nat, i < img.w * img.h →
        is_boundary img.data img.w img.h (i % img.w) (i / img.w) = true →
        (outline_emphasis img (35 / 100)).data.getD i zPix =
          ⟨blendChan (35 / 100) (img.data.getD i zPix).r (darkRGB img).1,
           blendChan (35 / 100) (img.data.getD i zPix).g (darkRGB img).2.1,
           blendChan (35 / 100) (img.data.getD i zPix).b (darkRGB img).2.2,
           (img.data.getD i zPix).a⟩) ∧
      (opaqueRGBList img ≠ [] →
        ∃ k, k < (opaqueRGBList img).length ∧
          (opaqueRGBList img).getD k (0, 0, 0) = darkRGB img ∧
          (∀ j, j < k →
            lumRGB (darkRGB img) < lumRGB ((opaqueRGBList img).getD j (0, 0, 0))) ∧
          (∀ c ∈ opaqueRGBList img, lumRGB (darkRGB img) ≤ lumRGB c))) :=
  claim_C5_outline ⟨2, 1, [⟨10, 10, 10, 255⟩, ⟨200, 0, 0, 255⟩]⟩ (35 / 100) (by decide)

/-- C7: each of the four transform stages preserves width and height and
returns a fully populated buffer of exactly width times height pixels. -/
theorem claim_C7_dimensions (img : Img) (thr maxc : Nat) (s am : ℚ) (hwf : img.WF) :
    ((speckle_cleanup img thr).w = img.w ∧ (speckle_cleanup img thr).h = img.h ∧
      (speckle_cleanup img thr).data.length = img.w * img.h) ∧
    ((quantize_if_needed img maxc).w = img.w ∧ (quantize_if_needed img maxc).h = img.h ∧
      (quantize_if_needed img maxc).data.length = img.w * img.h) ∧
    ((contrast_normalize img s).w = img.w ∧ (contrast_normalize img s).h = img.h ∧
      (contrast_normalize img s).data.length = img.w * img.h) ∧
    ((outline_emphasis img am).w = img.w ∧ (outline_emphasis img am).h = img.h ∧
      (outline_emphasis img am).data.length = img.w * img.h) := by
  refine ⟨⟨rfl, rfl, ?_⟩, ?_, ?_, ?_⟩
  · simp [speckle_cleanup]
  · unfold quantize_if_needed
    split
    · exact ⟨rfl, rfl, hwf⟩
    · refine ⟨rfl, rfl, ?_⟩
      dsimp only
      rw [List.length_map]
      exact hwf
  · unfold contrast_normalize
    dsimp only
    split
    · exact ⟨rfl, rfl, hwf⟩
    · split
      · exact ⟨rfl, rfl, hwf⟩
      · refine ⟨rfl, rfl, ?_⟩
        dsimp only
        rw [List.length_map]
        exact hwf
  · unfold outline_emphasis
    split
    · exact ⟨rfl, rfl, hwf⟩
    · refine ⟨rfl, rfl, ?_⟩
      dsimp only
      simp

/-- C7 witness: the dimension facts applied to a concrete 2-by-2 buffer. -/
theorem claim_C7_dimensions_witness :
    (let img : Img := ⟨2, 2, [⟨1, 2, 3, 0⟩, ⟨4, 5, 6, 0⟩, ⟨7, 8, 9, 0⟩, ⟨1, 1, 1, 0⟩]⟩
     ((speckle_cleanup img 1).w = img.w ∧ (speckle_cleanup img 1).h = img.h ∧
        (speckle_cleanup img 1).data.length = img.w * img.h) ∧
      ((quantize_if_needed img 48).w = img.w ∧ (quantize_if_needed img 48).h = img.h ∧
        (quantize_if_needed img 48).data.length = img.w * img.h) ∧
      ((contrast_normalize img (1 / 10)).w = img.w ∧
        (contrast_normalize img (1 / 10)).h = img.h ∧
        (contrast_normalize img (1 / 10)).data.length = img.w * img.h) ∧
      ((outline_emphasis img (3 / 10)).w = img.w ∧ (outline_emphasis img (3 / 10)).h = img.h ∧
        (outline_emphasis img (3 / 10)).data.length = img.w * img.h)) :=
  claim_C7_dimensions ⟨2, 2, [⟨1, 2, 3, 0⟩, ⟨4, 5, 6, 0⟩, ⟨7, 8, 9, 0⟩, ⟨1, 1, 1, 0⟩]⟩
    1 48 (1 / 10) (3 / 10) (by decide)

/-- A file path: its directory part and its final name component. -/
structure FPath where
  dir : String
  name : String
deriving DecidableEq

/-- str(path): the full path text. -/
def pathStr (p : FPath) : String := p.dir ++ "/" ++ p.name

/-- s.startswith(pre) from Python, on the underlying character lists. -/
def strStartsWith (s pre : String) : Bool := pre.data.isPrefixOf s.data

/-- s.endswith(suf) from Python. -/
def strEndsWith (s suf : String) : Bool := suf.data.isSuffixOf s.data

/-- Python substring membership: sub in s. -/
def strContains (s sub : String) : Bool :=
  (List.range (s.data.length + 1)).any fun i => sub.data.isPrefixOf (s.data.drop i)

/-- with_name(prefix + name) from the source: the preserved-original path
sitting next to the target. -/
def withPrefix (pre : String) (p : FPath) : FPath := ⟨p.dir, pre ++ p.name⟩

/-- One asset record of runtime/registry.json. -/
structure RegEntry where
  path : FPath
  type : String
  tags : List String
deriving DecidableEq

/-- A file on disk: a decodable PNG raster, an undecodable binary, or a
registry JSON document. -/
inductive File where
  | png (img : Img)
  | blob (id : Nat)
  | reg (entries : List RegEntry)
deriving DecidableEq

/-- Image.open: a PNG decodes to its raster; opening any other content
raises, which the model reports as none. -/
def decodeFile : File → Option Img
  | File.png i => some i
  | File.blob _ => none
  | File.reg _ => none

/-- The filesystem as a finite association list from paths to files. -/
abbrev FS := List (FPath × File)

def lookupFS : FS → FPath → Option File
  | [], _ => none
  | e :: fs, p => if e.1 = p then some e.2 else lookupFS fs p

def eraseFS : FS → FPath → FS
  | [], _ => []
  | e :: fs, p => if e.1 = p then eraseFS fs p else e :: eraseFS fs p

/-- Write a file at a path (os.replace target or Image.save). -/
def setFS (fs : FS) (p : FPath) (f : File) : FS := (p, f) :: eraseFS fs p

theorem lookupFS_eraseFS (fs : FS) (p q : FPath) :
    lookupFS (eraseFS fs p) q = if q = p then none else lookupFS fs q := by
  induction fs with
  | nil => by_cases h : q = p <;> simp [h, lookupFS, eraseFS]
  | cons e fs ih =>
    simp only [eraseFS]
    by_cases hep : e.1 = p
    · rw [if_pos hep, ih]
      by_cases hq : q = p
      · rw [if_pos hq, if_pos hq]
      · rw [if_neg hq, if_neg hq]
        simp only [lookupFS]
        have hne : ¬ e.1 = q := fun hc => hq (by rw [← hc]; exact hep)
        rw [if_neg hne]
    · rw [if_neg hep]
      simp only [lookupFS]
      by_cases heq : e.1 = q
      · rw [if_pos heq]
        have hq : ¬ q = p := fun hc => hep (by rw [heq, hc])
        rw [if_neg hq]
        rw [if_pos heq]
      · rw [if_neg heq, ih]
        by_cases hq : q = p
        · rw [if_pos hq, if_pos hq]
        · rw [if_neg hq, if_neg hq]
          rw [if_neg heq]

theorem lookupFS_setFS (fs : FS) (p : FPath) (f : File) (q : FPath) :
    lookupFS (setFS fs p f) q = if q = p then some f else lookupFS fs q := by
  unfold setFS
  simp only [lookupFS]
  by_cases hq : q = p
  · rw [if_pos hq, if_pos (by rw [hq])]
  · rw [if_neg hq, if_neg (fun hc : p = q => hq hc.symm), lookupFS_eraseFS, if_neg hq]

structure Target where
  path : FPath
  kind : String
deriving DecidableEq

/-- infer_kind_from_path from the source: duck-typed path classification. -/
def infer_kind_from_path (p : FPath) : String :=
  let s := (pathStr p).toLower
  if strContains s "/icons/" || strEndsWith s "_icon.png" || strContains p.name.toLower "icon"
  then "icon"
  else if strContains s "/players/" || strContains s "/enemies/" ||
      strContains s "/bosses/" || strContains s "/vfx/"
  then "sheet"
  else "image"

/-- Deduplication by path string, first occurrence winning, as done with the
seen sets of the source. -/
def dedupTargets (ts : List Target) : List Target :=
  (ts.foldl
    (fun (acc : List Target × List FPath) t =>
      if t.path ∈ acc.2 then acc else (acc.1 ++ [t], acc.2 ++ [t.path]))
    ([], [])).1

/-- load_targets_from_registry from the source: select entries carrying the
tag, map registry types to kinds, and deduplicate. -/
def load_targets_from_registry (entries : List RegEntry) (tag : String) : List Target :=
  dedupTargets (entries.filterMap fun a =>
    if tag ∈ a.tags then
      some ⟨a.path,
        if a.type = "spritesheet" then "sheet"
        else if a.type = "icon" then "icon"
        else infer_kind_from_path a.path⟩
    else none)

/-- load_targets_from_dirs from the source: recursively collect .png files
under the requested directories, skipping names that already carry the
preservation prefix, and deduplicate. -/
def load_targets_from_dirs (fs : FS) (dirs : List String) (pre : String) : List Target :=
  dedupTargets ((dirs.map fun d =>
    fs.filterMap fun e =>
      if (decide (e.1.dir = d) || strStartsWith e.1.dir (d ++ "/")) &&
         strEndsWith e.1.name ".png" && !(strStartsWith e.1.name pre)
      then some ⟨e.1, infer_kind_from_path e.1⟩ else none).join)

/-- upgrade_image from the source: the fixed four-stage pipeline with
kind-tuned parameters. -/
def upgrade_image (img : Img) (kind : String) : Img :=
  let params : Nat × ℚ × ℚ :=
    if kind = "icon" then (20, 12 / 100, 40 / 100)
    else if kind = "sheet" then (64, 10 / 100, 30 / 100)
    else (48, 10 / 100, 30 / 100)
  outline_emphasis
    (contrast_normalize (quantize_if_needed (speckle_cleanup img 1) params.1) params.2.1)
    params.2.2

/-- preserve_and_upgrade from the source.  The returned triple is
(ok, skip, message); an uncaught exception from Image.open on an
undecodable preserved file is the error case, carrying the filesystem as
it stands when the exception is raised. -/
def preserve_and_upgrade (fs : FS) (t : Target) (pre : String) (dry : Bool) :
    Except FS (FS × Bool × Bool × String) :=
  match lookupFS fs t.path with
  | none => Except.ok (fs, false, true, "missing from the two zips: " ++ pathStr t.path)
  | some f =>
    if strStartsWith t.path.name pre then Except.ok (fs, false, true, "prefixed")
    else
      let preserved := withPrefix pre t.path
      if dry then
        Except.ok (fs, true, false,
          "would preserve " ++ pathStr t.path ++ " -> " ++ pathStr preserved ++
          "; upgrade kind=" ++ t.kind)
      else
        let fs1 := if (lookupFS fs preserved).isSome then fs
                   else setFS (eraseFS fs t.path) preserved f
        match (lookupFS fs1 preserved).bind decodeFile with
        | none => Except.error fs1
        | some img =>
          Except.ok (setFS fs1 t.path (File.png (upgrade_image img t.kind)), true, false,
            "upgraded")

/-- The per-target loop of main: accumulate changed/skipped counts and the
printed log lines; an uncaught exception aborts the whole loop. -/
def runTargets (pre : String) (dry : Bool) :
    List Target → FS → Nat → Nat → List String → Except FS (FS × Nat × Nat × List String)
  | [], fs, changed, skipped, logs => Except.ok (fs, changed, skipped, logs)
  | t :: ts, fs, changed, skipped, logs =>
    match preserve_and_upgrade fs t pre dry with
    | Except.error fs' => Except.error fs'
    | Except.ok (fs', ok, skip, msg) =>
      if dry then
        runTargets pre dry ts fs' changed skipped (logs ++ ["[pixel_upgrade] " ++ msg])
      else if ok && !skip then
        runTargets pre dry ts fs' (if msg = "upgraded" then changed + 1 else changed)
          skipped logs
      else
        runTargets pre dry ts fs' changed (skipped + 1)
          (logs ++ if strStartsWith msg "missing from the two zips"
                   then ["[pixel_upgrade] " ++ msg] else [])

/-- The command-line arguments of the tool (the dirs string already split
on commas; pre is the preservation prefix). -/
structure Args where
  registry : FPath
  tag : String
  dirs : List String
  pre : String
  dryRun : Bool

/-- main from the source: returns the exit code, the final filesystem and
the printed lines, or the filesystem at the moment an uncaught exception
ends the run. -/
def mainRun (fs : FS) (a : Args) : Except FS (FS × Nat × List String) :=
  if a.tag ≠ "" ∧ lookupFS fs a.registry = none then
    Except.ok (fs, 2, ["[pixel_upgrade] missing from the two zips: " ++ pathStr a.registry])
  else
    match
      (if a.tag ≠ "" then
        match lookupFS fs a.registry with
        | some (File.reg entries) => Except.ok (load_targets_from_registry entries a.tag)
        | some _ => Except.error fs
        | none => Except.ok []
      else Except.ok [] : Except FS (List Target)) with
    | Except.error fs' => Except.error fs'
    | Except.ok ts1 =>
      let ts2 := if a.dirs ≠ [] then load_targets_from_dirs fs a.dirs a.pre else []
      let final := dedupTargets (ts1 ++ ts2)
      if final = [] then Except.ok (fs, 0, ["[pixel_upgrade] No targets matched."])
      else
        match runTargets a.pre a.dryRun final fs 0 0 [] with
        | Except.error fs' => Except.error fs'
        | Except.ok (fs', changed, skipped, logs) =>
          Except.ok (fs', 0, logs ++
            ["[pixel_upgrade] Upgraded " ++ toString changed ++ " asset(s); skipped " ++
             toString skipped ++ "."])

theorem ne_withPrefix (p : FPath) (pre : String) (h : strStartsWith p.name pre = false) :
    withPrefix pre p ≠ p := by
  intro hc
  have hname : pre ++ p.name = p.name := congrArg FPath.name hc
  have hdata : pre.data ++ p.name.data = p.name.data := by
    rw [← String.data_append, hname]
  have hlen : pre.data.length = 0 := by
    have h2 := congrArg List.length hdata
    rw [List.length_append] at h2
    omega
  have hpre : pre.data = [] := List.eq_nil_of_length_eq_zero hlen
  unfold strStartsWith at h
  rw [hpre] at h
  simp [List.isPrefixOf] at h

/-- Evaluation of preserve_and_upgrade on a fresh decodable target: the
original is renamed to the preserved path and the upgrade is written back
to the original path. -/
theorem preserve_eval_fresh (fs : FS) (t : Target) (pre : String) (f : File) (img : Img)
    (h1 : lookupFS fs t.path = some f)
    (h2 : strStartsWith t.path.name pre = false)
    (h3 : lookupFS fs (withPrefix pre t.path) = none)
    (h4 : decodeFile f = some img) :
    preserve_and_upgrade fs t pre false =
      Except.ok (setFS (setFS (eraseFS fs t.path) (withPrefix pre t.path) f) t.path
        (File.png (upgrade_image img t.kind)), true, false, "upgraded") := by
  unfold preserve_and_upgrade
  rw [h1]
  dsimp only
  rw [if_neg (show ¬ strStartsWith t.path.name pre = true by simp [h2])]
  rw [h3]
  simp only [Option.isSome_none, Bool.false_eq_true, if_false]
  have hl : lookupFS (setFS (eraseFS fs t.path) (withPrefix pre t.path) f)
      (withPrefix pre t.path) = some f := by
    rw [lookupFS_setFS]
    exact if_pos rfl
  rw [hl]
  simp only [Option.some_bind]
  rw [h4]

/-- Evaluation of preserve_and_upgrade when the preserved file already
exists: the rename is skipped and the preserved file is the decode source. -/
theorem preserve_eval_existing (fs : FS) (t : Target) (pre : String) (f g : File) (img : Img)
    (h1 : lookupFS fs t.path = some f)
    (h2 : strStartsWith t.path.name pre = false)
    (h3 : lookupFS fs (withPrefix pre t.path) = some g)
    (h4 : decodeFile g = some img) :
    preserve_and_upgrade fs t pre false =
      Except.ok (setFS fs t.path (File.png (upgrade_image img t.kind)), true, false,
        "upgraded") := by
  unfold preserve_and_upgrade
  rw [h1]
  dsimp only
  rw [if_neg (show ¬ strStartsWith t.path.name pre = true by simp [h2])]
  rw [h3]
  simp only [Option.isSome_some, if_true]
  rw [h3]
  simp only [Option.some_bind]
  rw [h4]
  simp only [Bool.false_eq_true, if_false]

/-- C4: preservation is idempotent - on a fresh target, running the
preserve-and-upgrade step twice creates exactly one preserved file (prefix
plus the original name) holding the original bytes; the preserved file is
never overwritten; the second run skips the rename and decodes the
preserved file; and no other path is touched. -/
theorem claim_C4_preserve_idempotent (fs : FS) (t : Target) (pre : String) (f : File)
    (img : Img)
    (h1 : lookupFS fs t.path = some f)
    (h2 : strStartsWith t.path.name pre = false)
    (h3 : lookupFS fs (withPrefix pre t.path) = none)
    (h4 : decodeFile f = some img) :
    ∃ fs1 fs2 : FS,
      preserve_and_upgrade fs t pre false = Except.ok (fs1, true, false, "upgraded") ∧
      preserve_and_upgrade fs1 t pre false = Except.ok (fs2, true, false, "upgraded") ∧
      lookupFS fs1 (withPrefix pre t.path) = some f ∧
      lookupFS fs2 (withPrefix pre t.path) = some f ∧
      lookupFS fs1 t.path = some (File.png (upgrade_image img t.kind)) ∧
      lookupFS fs2 t.path = some (File.png (upgrade_image img t.kind)) ∧
      (∀ q : FPath, q ≠ t.path → q ≠ withPrefix pre t.path →
        lookupFS fs2 q = lookupFS fs q) := by
  have hne : withPrefix pre t.path ≠ t.path := ne_withPrefix t.path pre h2
  refine ⟨setFS (setFS (eraseFS fs t.path) (withPrefix pre t.path) f) t.path
      (File.png (upgrade_image img t.kind)),
    setFS (setFS (setFS (eraseFS fs t.path) (withPrefix pre t.path) f) t.path
      (File.png (upgrade_image img t.kind))) t.path (File.png (upgrade_image img t.kind)),
    preserve_eval_fresh fs t pre f img h1 h2 h3 h4, ?_, ?_, ?_, ?_, ?_, ?_⟩
  · refine preserve_eval_existing _ t pre (File.png (upgrade_image img t.kind)) f img
      ?_ h2 ?_ h4
    · rw [lookupFS_setFS]
      exact if_pos rfl
    · rw [lookupFS_setFS, if_neg hne, lookupFS_setFS]
      exact if_pos rfl
  · rw [lookupFS_setFS, if_neg hne, lookupFS_setFS]
    exact if_pos rfl
  · rw [lookupFS_setFS, if_neg hne, lookupFS_setFS, if_neg hne, lookupFS_setFS]
    exact if_pos rfl
  · rw [lookupFS_setFS]
    exact if_pos rfl
  · rw [lookupFS_setFS]
    exact if_pos rfl
  · intro q hq1 hq2
    rw [lookupFS_setFS, if_neg hq1, lookupFS_setFS, if_neg hq1, lookupFS_setFS,
      if_neg hq2, lookupFS_eraseFS, if_neg hq1]

/-- C4 witness: the idempotence facts on a concrete one-file filesystem. -/
theorem claim_C4_preserve_idempotent_witness :
    (let p : FPath := ⟨"assets", "orc.png"⟩
     let img : Img := ⟨1, 1, [⟨5, 5, 5, 255⟩]⟩
     let fs : FS := [(p, File.png img)]
     let t : Target := ⟨p, "image"⟩
     ∃ fs1 fs2 : FS,
      preserve_and_upgrade fs t "original_" false = Except.ok (fs1, true, false, "upgraded") ∧
      preserve_and_upgrade fs1 t "original_" false = Except.ok (fs2, true, false, "upgraded") ∧
      lookupFS fs1 (withPrefix "original_" t.path) = some (File.png img) ∧
      lookupFS fs2 (withPrefix "original_" t.path) = some (File.png img) ∧
      lookupFS fs1 t.path = some (File.png (upgrade_image img t.kind)) ∧
      lookupFS fs2 t.path = some (File.png (upgrade_image img t.kind)) ∧
      (∀ q : FPath, q ≠ t.path → q ≠ withPrefix "original_" t.path →
        lookupFS fs2 q = lookupFS fs q)) :=
  claim_C4_preserve_idempotent _ _ "original_" (File.png ⟨1, 1, [⟨5, 5, 5, 255⟩]⟩)
    ⟨1, 1, [⟨5, 5, 5, 255⟩]⟩ (by decide) (by decide) (by decide) rfl

theorem strStartsWith_append (a b : String) : strStartsWith (a ++ b) a = true := by
  unfold strStartsWith
  rw [String.data_append, List.isPrefixOf_iff_prefix]
  exact List.prefix_append a.data b.data

/-- The dry-run result triple of preserve_and_upgrade for one target. -/
def puDry (fs : FS) (t : Target) (pre : String) : Bool × Bool × String :=
  match lookupFS fs t.path with
  | none => (false, true, "missing from the two zips: " ++ pathStr t.path)
  | some _ =>
    if strStartsWith t.path.name pre then (false, true, "prefixed")
    else (true, false,
      "would preserve " ++ pathStr t.path ++ " -> " ++ pathStr (withPrefix pre t.path) ++
      "; upgrade kind=" ++ t.kind)

theorem preserve_dry (fs : FS) (t : Target) (pre : String) :
    preserve_and_upgrade fs t pre true = Except.ok (fs, puDry fs t pre) := by
  unfold preserve_and_upgrade puDry
  cases lookupFS fs t.path with
  | none => rfl
  | some f =>
    dsimp only
    by_cases hs : strStartsWith t.path.name pre = true
    · rw [if_pos hs, if_pos hs]
    · rw [if_neg hs, if_neg hs, if_pos rfl]

/-- C9: in dry-run mode the whole per-target loop performs no filesystem
mutation and changes no counters; it only logs, per target, the message of
the action that would occur - for every resolvable target that message
names the preservation rename and the upgrade kind. -/
theorem claim_C9_dry_run (fs : FS) (ts : List Target) (pre : String)
    (changed skipped : Nat) (logs : List String) :
    runTargets pre true ts fs changed skipped logs =
      Except.ok (fs, changed, skipped,
        logs ++ ts.map fun t => "[pixel_upgrade] " ++ (puDry fs t pre).2.2) ∧
    (∀ t : Target, ∀ f : File, lookupFS fs t.path = some f →
      strStartsWith t.path.name pre = false →
      (puDry fs t pre).2.2 =
        "would preserve " ++ pathStr t.path ++ " -> " ++ pathStr (withPrefix pre t.path) ++
        "; upgrade kind=" ++ t.kind) := by
  constructor
  · induction ts generalizing logs with
    | nil => simp [runTargets]
    | cons t ts ih =>
      unfold runTargets
      rw [preserve_dry]
      dsimp only
      rw [if_pos rfl, ih]
      simp [List.append_assoc]
  · intro t f h1 h2
    unfold puDry
    rw [h1]
    dsimp only
    rw [if_neg (by simp [h2])]

/-- C9 witness: the dry-run facts on a concrete one-target filesystem. -/
theorem claim_C9_dry_run_witness :
    (let p : FPath := ⟨"assets", "orc.png"⟩
     let fs : FS := [(p, File.png ⟨1, 1, [⟨5, 5, 5, 255⟩]⟩)]
     let ts : List Target := [⟨p, "image"⟩]
     runTargets "original_" true ts fs 0 0 [] =
        Except.ok (fs, 0, 0,
          [] ++ ts.map fun t => "[pixel_upgrade] " ++ (puDry fs t "original_").2.2) ∧
      (∀ t : Target, ∀ f : File, lookupFS fs t.path = some f →
        strStartsWith t.path.name "original_" = false →
        (puDry fs t "original_").2.2 =
          "would preserve " ++ pathStr t.path ++ " -> " ++
          pathStr (withPrefix "original_" t.path) ++ "; upgrade kind=" ++ t.kind)) :=
  claim_C9_dry_run [(⟨"assets", "orc.png"⟩, File.png ⟨1, 1, [⟨5, 5, 5, 255⟩]⟩)]
    [⟨⟨"assets", "orc.png"⟩, "image"⟩] "original_" 0 0 []

/-- Evaluation of preserve_and_upgrade when the file to be decoded (the
already-preserved file, or else the freshly renamed original) cannot be
decoded: the uncaught exception surfaces after the rename has happened. -/
theorem preserve_eval_decode_fail (fs : FS) (t : Target) (pre : String) (f : File)
    (h1 : lookupFS fs t.path = some f)
    (h2 : strStartsWith t.path.name pre = false)
    (h3 : decodeFile ((lookupFS fs (withPrefix pre t.path)).getD f) = none) :
    preserve_and_upgrade fs t pre false =
      Except.error (if (lookupFS fs (withPrefix pre t.path)).isSome then fs
        else setFS (eraseFS fs t.path) (withPrefix pre t.path) f) := by
  unfold preserve_and_upgrade
  rw [h1]
  dsimp only
  rw [if_neg (by simp [h2])]
  simp only [Bool.false_eq_true, if_false]
  cases hp : lookupFS fs (withPrefix pre t.path) with
  | none =>
    rw [hp] at h3
    simp only [Option.getD_none] at h3
    simp only [Option.isSome_none, Bool.false_eq_true, if_false]
    have hl : lookupFS (setFS (eraseFS fs t.path) (withPrefix pre t.path) f)
        (withPrefix pre t.path) = some f := by
      rw [lookupFS_setFS]
      exact if_pos rfl
    rw [hl]
    simp only [Option.some_bind]
    rw [h3]
  | some g =>
    rw [hp] at h3
    simp only [Option.getD_some] at h3
    simp only [Option.isSome_some, if_true]
    rw [hp]
    simp only [Option.some_bind]
    rw [h3]

theorem runTargets_cons (pre : String) (dry : Bool) (t : Target) (ts : List Target)
    (fs : FS) (changed skipped : Nat) (logs : List String) :
    runTargets pre dry (t :: ts) fs changed skipped logs =
      match preserve_and_upgrade fs t pre dry with
      | Except.error fs' => Except.error fs'
      | Except.ok (fs', ok, skip, msg) =>
        if dry then
          runTargets pre dry ts fs' changed skipped (logs ++ ["[pixel_upgrade] " ++ msg])
        else if ok && !skip then
          runTargets pre dry ts fs' (if msg = "upgraded" then changed + 1 else changed)
            skipped logs
        else
          runTargets pre dry ts fs' changed (skipped + 1)
            (logs ++ if strStartsWith msg "missing from the two zips"
                     then ["[pixel_upgrade] " ++ msg] else []) := rfl

/-- C1 amended: a decode failure is not caught - the first target whose
decode source fails aborts the whole loop with an uncaught exception (after
the rename), the failure is not recorded and the remaining targets are not
processed; only a missing asset is the per-target recoverable case, counted
as skipped and logged while the loop continues. -/
theorem claim_C1_amended_decode_aborts :
    (∀ (fs : FS) (t : Target) (ts : List Target) (pre : String) (f : File)
      (changed skipped : Nat) (logs : List String),
      lookupFS fs t.path = some f →
      strStartsWith t.path.name pre = false →
      decodeFile ((lookupFS fs (withPrefix pre t.path)).getD f) = none →
      runTargets pre false (t :: ts) fs changed skipped logs =
        Except.error (if (lookupFS fs (withPrefix pre t.path)).isSome then fs
          else setFS (eraseFS fs t.path) (withPrefix pre t.path) f)) ∧
    (∀ (fs : FS) (t : Target) (ts : List Target) (pre : String)
      (changed skipped : Nat) (logs : List String),
      lookupFS fs t.path = none →
      runTargets pre false (t :: ts) fs changed skipped logs =
        runTargets pre false ts fs changed (skipped + 1)
          (logs ++ ["[pixel_upgrade] missing from the two zips: " ++ pathStr t.path])) := by
  constructor
  · intro fs t ts pre f changed skipped logs h1 h2 h3
    unfold runTargets
    rw [preserve_eval_decode_fail fs t pre f h1 h2 h3]
  · intro fs t ts pre changed skipped logs h1
    rw [runTargets_cons]
    have hmiss : preserve_and_upgrade fs t pre false =
        Except.ok (fs, false, true, "missing from the two zips: " ++ pathStr t.path) := by
      unfold preserve_and_upgrade
      rw [h1]
    rw [hmiss]
    dsimp only
    simp only [Bool.false_eq_true, if_false, Bool.false_and, Bool.and_false]
    have hsw : strStartsWith ("missing from the two zips: " ++ pathStr t.path)
        "missing from the two zips" = true := by
      have hsplit : ("missing from the two zips: " : String) =
          "missing from the two zips" ++ ": " := by decide
      rw [hsplit, String.append_assoc]
      exact strStartsWith_append _ _
    rw [hsw]
    simp only [if_true]
    have hjoin : ("[pixel_upgrade] " : String) ++
        ("missing from the two zips: " ++ pathStr t.path) =
        "[pixel_upgrade] missing from the two zips: " ++ pathStr t.path := by
      rw [← String.append_assoc]
      have h0 : ("[pixel_upgrade] " : String) ++ "missing from the two zips: " =
          "[pixel_upgrade] missing from the two zips: " := by decide
      rw [h0]
    rw [hjoin]

/-- C1 amended witness: the abort and the missing-asset continuation on
concrete filesystems. -/
theorem claim_C1_amended_decode_aborts_witness :
    (runTargets "original_" false
        [⟨⟨"assets", "a.png"⟩, "image"⟩] [(⟨"assets", "a.png"⟩, File.blob 0)] 0 0 [] =
      Except.error (if (lookupFS [(⟨"assets", "a.png"⟩, File.blob 0)]
          (withPrefix "original_" ⟨"assets", "a.png"⟩)).isSome
        then [(⟨"assets", "a.png"⟩, File.blob 0)]
        else setFS (eraseFS [(⟨"assets", "a.png"⟩, File.blob 0)] ⟨"assets", "a.png"⟩)
          (withPrefix "original_" ⟨"assets", "a.png"⟩) (File.blob 0))) ∧
    (runTargets "original_" false [⟨⟨"assets", "gone.png"⟩, "image"⟩] [] 0 0 [] =
      runTargets "original_" false [] [] 0 1
        ([] ++ ["[pixel_upgrade] missing from the two zips: " ++
          pathStr (⟨"assets", "gone.png"⟩ : FPath)])) :=
  ⟨claim_C1_amended_decode_aborts.1 _ _ [] "original_" (File.blob 0) 0 0 []
      (by decide) (by decide) (by decide),
   claim_C1_amended_decode_aborts.2 _ _ [] "original_" 0 0 [] (by decide)⟩

/-- C1 counterexample: with a malformed first target the batch run aborts
with an uncaught exception - the second target is neither processed nor
preserved and no summary is produced, contradicting the claim that a decode
failure merely skips that target while processing continues. -/
theorem claim_C1_counterexample :
    ∃ fs' : FS,
      runTargets "original_" false
        [⟨⟨"assets", "a.png"⟩, "image"⟩, ⟨⟨"assets", "b.png"⟩, "image"⟩]
        [(⟨"assets", "a.png"⟩, File.blob 7),
         (⟨"assets", "b.png"⟩, File.png ⟨1, 1, [⟨1, 2, 3, 255⟩]⟩)] 0 0 [] =
        Except.error fs' ∧
      lookupFS fs' ⟨"assets", "b.png"⟩ = some (File.png ⟨1, 1, [⟨1, 2, 3, 255⟩]⟩) ∧
      lookupFS fs' ⟨"assets", "original_b.png"⟩ = none :=
  ⟨[(⟨"assets", "original_a.png"⟩, File.blob 7),
    (⟨"assets", "b.png"⟩, File.png ⟨1, 1, [⟨1, 2, 3, 255⟩]⟩)], by rfl, by rfl, by rfl⟩

/-- C8 amended: requesting a tag filter against an absent registry returns
exit status 2 before any file is touched, and that is the only non-zero
return value of a run that completes normally; runs can however also end in
an uncaught exception (for example a malformed PNG or a non-JSON registry),
which is an abnormal, non-zero-exit termination rather than a zero exit. -/
theorem claim_C8_amended (fs : FS) (a : Args) :
    (a.tag ≠ "" → lookupFS fs a.registry = none →
      mainRun fs a = Except.ok (fs, 2,
        ["[pixel_upgrade] missing from the two zips: " ++ pathStr a.registry])) ∧
    (∀ (fs' : FS) (code : Nat) (logs : List String),
      mainRun fs a = Except.ok (fs', code, logs) →
      ((code ≠ 0 ↔ a.tag ≠ "" ∧ lookupFS fs a.registry = none) ∧
       (code ≠ 0 → code = 2 ∧ fs' = fs))) := by
  constructor
  · intro h1 h2
    unfold mainRun
    rw [if_pos ⟨h1, h2⟩]
  · intro fs' code logs h
    unfold mainRun at h
    by_cases hg : a.tag ≠ "" ∧ lookupFS fs a.registry = none
    · rw [if_pos hg] at h
      simp only [Except.ok.injEq, Prod.mk.injEq] at h
      obtain ⟨hfs, hcode, _⟩ := h
      refine ⟨⟨fun _ => hg, fun _ => by omega⟩, fun _ => ⟨by omega, hfs.symm⟩⟩
    · rw [if_neg hg] at h
      dsimp only at h
      split at h
      all_goals try split at h
      all_goals try split at h
      all_goals try split at h
      all_goals
        first
          | exact Except.noConfusion h
          | (simp only [Except.ok.injEq, Prod.mk.injEq] at h
             obtain ⟨hfs, hcode, _⟩ := h
             exact ⟨⟨fun hc => absurd hcode.symm hc, fun hgc => absurd hgc hg⟩,
               fun hc => absurd hcode.symm hc⟩)

/-- C8 amended witness: an absent registry with a tag filter on a concrete
empty filesystem - exit 2, nothing touched - plus the only-case facts. -/
theorem claim_C8_amended_witness :
    (mainRun [] ⟨⟨"runtime", "registry.json"⟩, "player", [], "original_", false⟩ =
      Except.ok ([], 2, ["[pixel_upgrade] missing from the two zips: " ++
        pathStr (⟨"runtime", "registry.json"⟩ : FPath)])) ∧
    ((2 ≠ 0 ↔ ("player" ≠ "" ∧
        lookupFS [] (⟨"runtime", "registry.json"⟩ : FPath) = none)) ∧
     ((2 : Nat) ≠ 0 → 2 = 2 ∧ ([] : FS) = [])) := by
  have h1 := (claim_C8_amended []
    ⟨⟨"runtime", "registry.json"⟩, "player", [], "original_", false⟩).1 (by decide) rfl
  exact ⟨h1, (claim_C8_amended [] _).2 [] 2 _ h1⟩

/-- C8 counterexample: a run whose tag filter resolves against a present
registry but whose target is a malformed PNG terminates with an uncaught
exception - an abnormal termination rather than the zero exit the claim
promises for every non-registry-missing outcome. -/
theorem claim_C8_counterexample :
    (lookupFS
        [(⟨"runtime", "registry.json"⟩,
            File.reg [⟨⟨"assets", "a.png"⟩, "icon", ["x"]⟩]),
         (⟨"assets", "a.png"⟩, File.blob 3)]
        (⟨"runtime", "registry.json"⟩ : FPath)).isSome = true ∧
    ("x" : String) ≠ "" ∧
    mainRun
      [(⟨"runtime", "registry.json"⟩,
          File.reg [⟨⟨"assets", "a.png"⟩, "icon", ["x"]⟩]),
       (⟨"assets", "a.png"⟩, File.blob 3)]
      ⟨⟨"runtime", "registry.json"⟩, "x", [], "original_", false⟩ =
      Except.error
        [(⟨"assets", "original_a.png"⟩, File.blob 3),
         (⟨"runtime", "registry.json"⟩,
            File.reg [⟨⟨"assets", "a.png"⟩, "icon", ["x"]⟩])] :=
  ⟨by rfl, by decide, by rfl⟩
